import Mathlib

/-
  Verification of the grub2 configuration model, boot-entry catalog and
  event batching of the bootkitd service.

  Text is modelled as `List Char`.  The embedding follows
  src/src/grub2/mod.rs and src/src/events/mod.rs:
  - `KeyValue`, `GrubLine`, `GrubFile` with `GrubFile.new` (parse),
    `GrubFile.set_key_value` and `GrubFile.as_string` (serialize),
  - `GrubBootEntry.parse_entries` and `GrubBootEntry.full_path`,
  - the selection resolution of `GrubBootEntries::new` as the pure
    function `resolveSelected` over the two file contents,
  - one iteration of the inotify batch loop of
    `BootkitEvents::listen_files_loop` as `processBatch`.
  The HashMap of keyvalues is modelled as an association list with
  overwrite-on-insert, matching HashMap::insert / HashMap::get.
-/

namespace Bootkitd

/-! ### Text primitives -/

/-- Rust `str::trim` (whitespace stripped from both ends). -/
def trim (l : List Char) : List Char :=
  ((l.dropWhile Char.isWhitespace).reverse.dropWhile Char.isWhitespace).reverse

/-- Rust `str::split_once(c)`: split at the first occurrence of `c`. -/
def splitOnce (c : Char) : List Char → Option (List Char × List Char)
  | [] => none
  | x :: xs =>
    if x = c then some ([], xs)
    else
      match splitOnce c xs with
      | some ab => some (x :: ab.1, ab.2)
      | none => none

/-- Rust `str::split(c)`: always returns at least one (possibly empty)
segment, and a trailing separator yields a trailing empty segment. -/
def splitOnChar (c : Char) : List Char → List (List Char)
  | [] => [[]]
  | x :: xs =>
    if x = c then [] :: splitOnChar c xs
    else
      match splitOnChar c xs with
      | [] => [[x]]
      | s :: ss => (x :: s) :: ss

/-- Inverse of `splitOnChar`: interleave the separator between segments. -/
def joinChar (c : Char) : List (List Char) → List Char
  | [] => []
  | [s] => s
  | s :: ss => s ++ c :: joinChar c ss

/-- Strip one trailing carriage return, as Rust `str::lines` does. -/
def stripCR (l : List Char) : List Char :=
  if l.getLast? = some '\x0d' then l.dropLast else l

/-- Rust `str::lines`: split on newline, drop a final empty segment
(the final line ending is optional), strip one trailing CR per line. -/
def rustLines (s : List Char) : List (List Char) :=
  let segs := splitOnChar '\n' s
  (if segs.getLast? = some [] then segs.dropLast else segs).map stripCR

/-! ### KeyValue (src/src/grub2/mod.rs lines 10-88) -/

/-- Error type; `grubParse n` carries the 1-based line number of
`DError::grub_parse_error` messages, the env variants stand for the two
grubenv parse errors of `GrubBootEntries::new`. -/
inductive DError
  | grubParse (lineNumber : Nat)
  | envExpectedEq
  | envExpectedValue
deriving DecidableEq

structure KeyValue where
  line : Nat
  original : List Char
  changed : Bool
  key : List Char
  value : List Char
deriving DecidableEq

/-- `KeyValue::new` followed by the `parse` it performs: trim the line,
split at the first `=` (failing with the 1-based line number otherwise);
the key is the text before `=`, the value is the text after with every
single/double quote character removed (`replace(['\x27', '\x22'], "")`). -/
def KeyValue.new (line : Nat) (original : List Char) : Except DError KeyValue :=
  match splitOnce '=' (trim original) with
  | none => .error (.grubParse (line + 1))
  | some sp =>
    .ok { line := line, original := original, changed := false,
          key := sp.1,
          value := sp.2.filter (fun ch => ch != '\x27' && ch != '\x22') }

/-- `KeyValue::from_key_val`: fresh entry, already marked changed. -/
def KeyValue.from_key_val (line : Nat) (key value : List Char) : KeyValue :=
  { line := line, original := [], changed := true, key := key, value := value }

/-- `KeyValue::update`: identical value is a no-op, a different value
overwrites and sets the changed flag. -/
def KeyValue.update (kv : KeyValue) (value : List Char) : KeyValue :=
  if kv.value = value then kv else { kv with changed := true, value := value }

/-- `From<&KeyValue> for String`: the verbatim original unless changed,
otherwise `key="value"` with double quotes. -/
def KeyValue.render (kv : KeyValue) : List Char :=
  if kv.changed then kv.key ++ '=' :: '\x22' :: (kv.value ++ ['\x22'])
  else kv.original

inductive GrubLine
  | keyValue (kv : KeyValue)
  | string (raw_line : List Char)
deriving DecidableEq

/-- `From<&GrubLine> for String`. -/
def GrubLine.render : GrubLine → List Char
  | .keyValue kv => kv.render
  | .string raw => raw

/-! ### GrubFile (src/src/grub2/mod.rs lines 115-193) -/

/-- The keyvalue map, modelling `HashMap<String, KeyValue>`. -/
structure GrubFile where
  lines : List GrubLine
  keyvals : List (List Char × KeyValue)
deriving DecidableEq

/-- `HashMap::get`. -/
def lookupA (m : List (List Char × KeyValue)) (k : List Char) : Option KeyValue :=
  match m with
  | [] => none
  | p :: rest => if p.1 = k then some p.2 else lookupA rest k

/-- `HashMap::insert`: overwrite the binding of `k` or add a new one. -/
def insertA (m : List (List Char × KeyValue)) (k : List Char) (v : KeyValue) :
    List (List Char × KeyValue) :=
  match m with
  | [] => [(k, v)]
  | p :: rest => if p.1 = k then (k, v) :: rest else p :: insertA rest k v

/-- One line of `GrubFile::new`: a line whose trimmed form is empty or
starts with `#` is kept as opaque text, anything else must parse as a
key/value pair. -/
def parseLine (idx : Nat) (seg : List Char) : Except DError GrubLine :=
  if trim seg = [] ∨ (trim seg).head? = some '#' then .ok (.string seg)
  else (KeyValue.new idx seg).map .keyValue

/-- The loop of `GrubFile::new` over the enumerated segments. -/
def parseLoop : Nat → List (List Char) → List GrubLine →
    List (List Char × KeyValue) → Except DError GrubFile
  | _, [], lines, keyvals => .ok { lines := lines, keyvals := keyvals }
  | idx, seg :: rest, lines, keyvals =>
    match parseLine idx seg with
    | .error e => .error e
    | .ok (.string raw) => parseLoop (idx + 1) rest (lines ++ [.string raw]) keyvals
    | .ok (.keyValue kv) =>
      parseLoop (idx + 1) rest (lines ++ [.keyValue kv]) (insertA keyvals kv.key kv)

/-- `GrubFile::new`: split on newline (keeping the trailing empty
segment) and parse each segment in order. -/
def GrubFile.new (file : List Char) : Except DError GrubFile :=
  parseLoop 0 (splitOnChar '\n' file) [] []

/-- `GrubFile::set_key_value`.  Rust indexes `self.lines[keyval.line]`
directly; that index is always in range and holds a `KeyValue` for any
document built by `new` and `set_key_value` (see `LookupCoherent`), so
the fall-through branch of the inner match is unreachable there. -/
def GrubFile.set_key_value (f : GrubFile) (key value : List Char) : GrubFile :=
  match lookupA f.keyvals key with
  | some kv =>
    { lines :=
        match f.lines.get? kv.line with
        | some (.keyValue lkv) => f.lines.set kv.line (.keyValue (lkv.update value))
        | _ => f.lines,
      keyvals := insertA f.keyvals key (kv.update value) }
  | none =>
    let kv := KeyValue.from_key_val f.lines.length key value
    { lines := f.lines ++ [.keyValue kv], keyvals := insertA f.keyvals kv.key kv }

/-- `GrubFile::as_string`: render every line and join with newline. -/
def GrubFile.as_string (f : GrubFile) : List Char :=
  joinChar '\n' (f.lines.map GrubLine.render)

/-- A sequence of `set_key_value` edits applied in order. -/
def applyOps (f : GrubFile) : List (List Char × List Char) → GrubFile
  | [] => f
  | op :: rest => applyOps (f.set_key_value op.1 op.2) rest

/-! ### Boot entries (src/src/grub2/mod.rs lines 195-341) -/

structure GrubBootEntry where
  entry : List Char
  submenus : List (List Char)
deriving DecidableEq

def kwMenuentry : List Char := ("menuentry").toList
def kwSubmenu : List Char := ("submenu").toList
def kwSavedEntry : List Char := ("saved_entry").toList

/-- Match of the regex `kw\s+\x27([^\x27]+)` anchored at the start of
`l`: the keyword, one or more whitespace characters, a single quote,
then the maximal nonempty run of non-quote characters is captured. -/
def matchAt (kw : List Char) (l : List Char) : Option (List Char) :=
  if kw.isPrefixOf l then
    let rest := l.drop kw.length
    if rest.takeWhile Char.isWhitespace ≠ [] then
      match rest.dropWhile Char.isWhitespace with
      | '\x27' :: tail =>
        let capt := tail.takeWhile (fun c => c != '\x27')
        if capt ≠ [] then some capt else none
      | _ => none
    else none
  else none

/-- `Regex::captures` group 1 for the pattern `kw\s+\x27([^\x27]+)`:
the leftmost position admitting a match wins. -/
def captureQuoted (kw : List Char) : List Char → Option (List Char)
  | [] => none
  | c :: rest =>
    match matchAt kw (c :: rest) with
    | some n => some n
    | none => captureQuoted kw rest

/-- The scan loop of `GrubBootEntry::parse_entries`: per trimmed line,
a leading closing brace closes an open entry block or else pops the
submenu stack; a menuentry line opens an entry block and, when its name
matches the quoted-name pattern, emits an entry carrying a snapshot of
the submenu stack; a submenu line pushes its captured name. -/
def parseEntriesLoop : List (List Char) → Bool → List (List Char) →
    List GrubBootEntry → List GrubBootEntry
  | [], _, _, acc => acc
  | l :: rest, entryOpen, subs, acc =>
    let line := trim l
    if line.head? = some '\x7d' then
      if entryOpen then parseEntriesLoop rest false subs acc
      else parseEntriesLoop rest entryOpen subs.dropLast acc
    else if kwMenuentry.isPrefixOf line then
      match captureQuoted kwMenuentry line with
      | some name => parseEntriesLoop rest true subs (acc ++ [⟨name, subs⟩])
      | none => parseEntriesLoop rest true subs acc
    else if kwSubmenu.isPrefixOf line then
      match captureQuoted kwSubmenu line with
      | some name => parseEntriesLoop rest entryOpen (subs ++ [name]) acc
      | none => parseEntriesLoop rest entryOpen subs acc
    else parseEntriesLoop rest entryOpen subs acc

/-- `GrubBootEntry::parse_entries`: the body has no failing path, so the
result is always `Ok`. -/
def GrubBootEntry.parse_entries (contents : List Char) :
    Except DError (List GrubBootEntry) :=
  .ok (parseEntriesLoop (rustLines contents) false [] [])

/-- `GrubBootEntry::full_path`: submenu names joined by `>` followed by
the entry name; just the name when there are no submenus. -/
def GrubBootEntry.full_path (e : GrubBootEntry) : List Char :=
  if e.submenus = [] then e.entry
  else joinChar '>' e.submenus ++ '>' :: e.entry

/-- Rust `str::parse::<usize>` on 64-bit targets: an optional leading
plus sign, then one or more ASCII digits, rejecting overflow. -/
def parseUsize (s : List Char) : Option Nat :=
  let ds := match s with
    | '+' :: rest => rest
    | _ => s
  if ds ≠ [] ∧ ds.all Char.isDigit then
    let n := ds.foldl (fun a c => a * 10 + (c.toNat - 48)) 0
    if n < 18446744073709551616 then some n else none
  else none

/-- The saved-entry resolution of `GrubBootEntries::new` (lines 282-320)
as a pure function of the discovered entries and the grubenv text: the
first line starting with saved_entry must have an `=` and a nonempty
trimmed right-hand side; a value parsing as usize selects by index (out
of range gives none), otherwise the value is compared with each entry
name; with no saved_entry line there is no selection. -/
def resolveSelected (entries : List GrubBootEntry) (env : List Char) :
    Except DError (Option GrubBootEntry) :=
  match (rustLines env).find? (fun l => kwSavedEntry.isPrefixOf l) with
  | none => .ok none
  | some line =>
    match splitOnce '=' line with
    | none => .error .envExpectedEq
    | some sp =>
      let value := trim sp.2
      if value = [] then .error .envExpectedValue
      else
        match parseUsize value with
        | some idx => .ok (entries.get? idx)
        | none => .ok (entries.find? (fun e => e.entry == value))

/-! ### File-watch batch (src/src/events/mod.rs lines 61-92) -/

inductive EventMask
  | access
  | modify
  | create
  | delete
deriving DecidableEq

/-- One inotify event as consumed by `listen_files_loop`. -/
structure FsEvent where
  mask : List EventMask
  name : Option (List Char)
deriving DecidableEq

/-- `event.name.is_some_and(|name| name == "grub" || name == "grubenv")`. -/
def watchedName : Option (List Char) → Bool
  | some n => n == ("grub").toList || n == ("grubenv").toList
  | none => false

/-- An event that triggers the change signal (ignoring the per-batch
de-duplication flag). -/
def qualifies (e : FsEvent) : Bool :=
  e.mask.contains EventMask.modify && watchedName e.name

/-- One iteration of the batch loop of `listen_files_loop`: the number
of outbound file-changed signals emitted for a batch, threading the
`signaled` de-duplication flag exactly as the source does. -/
def processBatch : List FsEvent → Bool → Nat
  | [], _ => 0
  | e :: rest, signaled =>
    if e.mask.contains EventMask.modify && !signaled && watchedName e.name then
      1 + processBatch rest true
    else
      processBatch rest signaled

/-! ### List helper lemmas -/

theorem getq_append_lt {α : Type} : ∀ (L : List α) (x : α) (j : Nat),
    j < L.length → (L ++ [x]).get? j = L.get? j
  | [], _, j, h => absurd h (by simp)
  | _ :: _, _, 0, _ => rfl
  | _ :: L, x, j + 1, h => getq_append_lt L x j (by simpa using h)

theorem getq_append_len {α : Type} : ∀ (L : List α) (x : α),
    (L ++ [x]).get? L.length = some x
  | [], _ => rfl
  | _ :: L, x => getq_append_len L x

theorem getq_append_gt {α : Type} : ∀ (L : List α) (x : α) (j : Nat),
    L.length < j → (L ++ [x]).get? j = none
  | [], _, 0, h => absurd h (by simp)
  | [], _, _ + 1, _ => rfl
  | _ :: _, _, 0, h => absurd h (by simp)
  | _ :: L, x, j + 1, h => getq_append_gt L x j (by simpa using h)

theorem getq_lt_length {α : Type} : ∀ (L : List α) (j : Nat) (a : α),
    L.get? j = some a → j < L.length
  | [], j, _, h => by simp [List.get?] at h
  | _ :: _, 0, _, _ => by simp
  | _ :: L, j + 1, a, h => by
    have := getq_lt_length L j a h
    simpa using this

theorem getq_none_of_le {α : Type} : ∀ (L : List α) (j : Nat),
    L.length ≤ j → L.get? j = none
  | [], 0, _ => rfl
  | [], _ + 1, _ => rfl
  | _ :: _, 0, h => absurd h (by simp)
  | _ :: L, j + 1, h => getq_none_of_le L j (by simpa using h)

theorem getq_set_self {α : Type} : ∀ (L : List α) (j : Nat) (a : α),
    j < L.length → (L.set j a).get? j = some a
  | [], j, _, h => absurd h (by simp)
  | _ :: _, 0, _, _ => rfl
  | _ :: L, j + 1, a, h => getq_set_self L j a (by simpa using h)

theorem getq_set_ne {α : Type} : ∀ (L : List α) (i j : Nat) (a : α),
    i ≠ j → (L.set i a).get? j = L.get? j
  | [], _, _, _, _ => by simp
  | _ :: _, 0, 0, _, h => absurd rfl h
  | _ :: _, 0, _ + 1, _, _ => rfl
  | _ :: _, _ + 1, 0, _, _ => rfl
  | _ :: L, i + 1, j + 1, a, h =>
    getq_set_ne L i j a (fun hc => h (by rw [hc]))

theorem set_getq_self {α : Type} : ∀ (L : List α) (j : Nat) (a : α),
    L.get? j = some a → L.set j a = L
  | [], _, _, h => by simp [List.get?] at h
  | x :: L, 0, a, h => by
    simp [List.get?] at h
    simp [List.set, h]
  | x :: L, j + 1, a, h => by
    simp only [List.set]
    rw [set_getq_self L j a h]

theorem getq_map {α β : Type} (f : α → β) : ∀ (L : List α) (j : Nat),
    (L.map f).get? j = (L.get? j).map f
  | [], _ => by simp
  | _ :: _, 0 => rfl
  | _ :: L, j + 1 => getq_map f L j

theorem mem_dropWhile_of_mem {p : Char → Bool} {c : Char} :
    ∀ {l : List Char}, c ∈ l → p c = false → c ∈ l.dropWhile p
  | [], h, _ => absurd h (by simp)
  | x :: l, h, hp => by
    by_cases hx : p x = true
    · rw [List.dropWhile_cons_of_pos hx]
      rcases List.mem_cons.mp h with rfl | hl
      · rw [hx] at hp; cases hp
      · exact mem_dropWhile_of_mem hl hp
    · rw [List.dropWhile_cons_of_neg hx]
      exact h

theorem mem_trim {c : Char} {l : List Char} (h : c ∈ l)
    (hws : c.isWhitespace = false) : c ∈ trim l := by
  unfold trim
  apply List.mem_reverse.mpr
  apply mem_dropWhile_of_mem _ hws
  apply List.mem_reverse.mpr
  exact mem_dropWhile_of_mem h hws

theorem splitOnce_some_of_mem {c : Char} :
    ∀ {l : List Char}, c ∈ l → ∃ ab, splitOnce c l = some ab
  | [], h => absurd h (by simp)
  | x :: l, h => by
    by_cases hx : x = c
    · exact ⟨([], l), by simp [splitOnce, hx]⟩
    · have hl : c ∈ l := by
        rcases List.mem_cons.mp h with rfl | hl
        · exact absurd rfl hx
        · exact hl
      obtain ⟨ab, hab⟩ := splitOnce_some_of_mem hl
      exact ⟨(x :: ab.1, ab.2), by simp [splitOnce, hx, hab]⟩

theorem splitOnce_none_of_not_mem {c : Char} :
    ∀ {l : List Char}, c ∉ l → splitOnce c l = none
  | [], _ => rfl
  | x :: l, h => by
    unfold splitOnce
    have hx : ¬x = c := fun hc => h (by rw [hc]; exact List.mem_cons_self c l)
    have hl : c ∉ l := fun hc => h (List.mem_cons_of_mem x hc)
    simp [hx, splitOnce_none_of_not_mem hl]

theorem splitOnChar_ne_nil (c : Char) : ∀ (l : List Char), splitOnChar c l ≠ []
  | [] => by simp [splitOnChar]
  | x :: xs => by
    unfold splitOnChar
    by_cases hx : x = c
    · simp [hx]
    · simp only [if_neg hx]
      match h : splitOnChar c xs with
      | [] => simp
      | s :: ss => simp

theorem joinChar_cons_cons (c : Char) (s a : List Char) (ss : List (List Char)) :
    joinChar c (s :: a :: ss) = s ++ c :: joinChar c (a :: ss) := rfl

theorem splitOnChar_cons (c x : Char) (xs : List Char) :
    splitOnChar c (x :: xs) =
      if x = c then [] :: splitOnChar c xs
      else
        match splitOnChar c xs with
        | [] => [[x]]
        | s :: ss => (x :: s) :: ss := rfl

theorem joinChar_splitOnChar (c : Char) : ∀ (l : List Char),
    joinChar c (splitOnChar c l) = l
  | [] => rfl
  | x :: xs => by
    have ih := joinChar_splitOnChar c xs
    by_cases hx : x = c
    · have hsplit : splitOnChar c (x :: xs) = [] :: splitOnChar c xs := by
        rw [splitOnChar_cons, if_pos hx]
      rw [hsplit]
      match h : splitOnChar c xs with
      | [] => exact absurd h (splitOnChar_ne_nil c xs)
      | s :: ss =>
        rw [h] at ih
        show c :: joinChar c (s :: ss) = x :: xs
        rw [ih, hx]
    · match h : splitOnChar c xs with
      | [] => exact absurd h (splitOnChar_ne_nil c xs)
      | [s] =>
        have hsplit : splitOnChar c (x :: xs) = [x :: s] := by
          rw [splitOnChar_cons, if_neg hx, h]
        rw [h] at ih
        rw [hsplit]
        show x :: s = x :: xs
        rw [show joinChar c [s] = s from rfl] at ih
        rw [ih]
      | s :: a :: ss =>
        have hsplit : splitOnChar c (x :: xs) = (x :: s) :: a :: ss := by
          rw [splitOnChar_cons, if_neg hx, h]
        rw [h] at ih
        rw [hsplit, joinChar_cons_cons]
        rw [joinChar_cons_cons] at ih
        show x :: (s ++ c :: joinChar c (a :: ss)) = x :: xs
        rw [ih]

/-! ### Parse lemmas -/

/-- A segment the parser accepts: opaque (blank or comment), or with an
equals sign in its trimmed form. -/
def WFSeg (seg : List Char) : Prop :=
  trim seg = [] ∨ (trim seg).head? = some '#' ∨ '=' ∈ trim seg

instance (seg : List Char) : Decidable (WFSeg seg) := by
  unfold WFSeg; infer_instance

theorem parseLine_text_verbatim (idx : Nat) (seg : List Char)
    (h : trim seg = [] ∨ (trim seg).head? = some '#') :
    parseLine idx seg = .ok (.string seg) := by
  simp [parseLine, h]

theorem parseLine_render (idx : Nat) (seg : List Char) (gl : GrubLine)
    (h : parseLine idx seg = .ok gl) : gl.render = seg := by
  unfold parseLine at h
  by_cases hop : trim seg = [] ∨ (trim seg).head? = some '#'
  · rw [if_pos hop] at h
    cases h
    rfl
  · rw [if_neg hop] at h
    unfold KeyValue.new at h
    match hs : splitOnce '=' (trim seg) with
    | none => rw [hs] at h; cases h
    | some sp =>
      rw [hs] at h
      cases h
      rfl

theorem parseLine_ok_of_wf (idx : Nat) (seg : List Char) (h : WFSeg seg) :
    ∃ gl, parseLine idx seg = .ok gl := by
  rcases h with h | h | h
  · exact ⟨_, parseLine_text_verbatim idx seg (Or.inl h)⟩
  · exact ⟨_, parseLine_text_verbatim idx seg (Or.inr h)⟩
  · unfold parseLine
    by_cases hop : trim seg = [] ∨ (trim seg).head? = some '#'
    · exact ⟨_, by rw [if_pos hop]⟩
    · rw [if_neg hop]
      obtain ⟨ab, hab⟩ := splitOnce_some_of_mem h
      exact ⟨_, by unfold KeyValue.new; rw [hab]; rfl⟩

theorem parseLine_err (idx : Nat) (seg : List Char)
    (hop : ¬(trim seg = [] ∨ (trim seg).head? = some '#'))
    (hmem : '=' ∉ trim seg) :
    parseLine idx seg = .error (.grubParse (idx + 1)) := by
  unfold parseLine
  rw [if_neg hop]
  unfold KeyValue.new
  rw [splitOnce_none_of_not_mem hmem]
  rfl

theorem parseLoop_cons (idx : Nat) (seg : List Char) (rest : List (List Char))
    (lines : List GrubLine) (keyvals : List (List Char × KeyValue)) :
    parseLoop idx (seg :: rest) lines keyvals =
      match parseLine idx seg with
      | .error e => .error e
      | .ok (.string raw) => parseLoop (idx + 1) rest (lines ++ [.string raw]) keyvals
      | .ok (.keyValue kv) =>
        parseLoop (idx + 1) rest (lines ++ [.keyValue kv])
          (insertA keyvals kv.key kv) := rfl

/-- On well-formed segments the loop succeeds and the rendered line list
extends the accumulator by exactly the input segments. -/
theorem parseLoop_ok_of_wf :
    ∀ (segs : List (List Char)) (idx : Nat) (L : List GrubLine)
      (K : List (List Char × KeyValue)),
      (∀ seg ∈ segs, WFSeg seg) →
      ∃ f, parseLoop idx segs L K = .ok f ∧
        f.lines.map GrubLine.render = L.map GrubLine.render ++ segs
  | [], _, L, K, _ => ⟨⟨L, K⟩, rfl, by simp⟩
  | seg :: rest, idx, L, K, h => by
    obtain ⟨gl, hgl⟩ :=
      parseLine_ok_of_wf idx seg (h seg (List.mem_cons_self seg rest))
    have hrest : ∀ s ∈ rest, WFSeg s := fun s hs => h s (List.mem_cons_of_mem seg hs)
    have hrender := parseLine_render idx seg gl hgl
    match gl, hgl, hrender with
    | .string raw, hgl, hrender =>
      obtain ⟨f, hf, hmap⟩ :=
        parseLoop_ok_of_wf rest (idx + 1) (L ++ [.string raw]) K hrest
      refine ⟨f, ?_, ?_⟩
      · rw [parseLoop_cons, hgl]
        exact hf
      · rw [hmap]
        simp only [List.map_append, List.map_cons, List.map_nil]
        rw [List.append_assoc]
        have : GrubLine.render (.string raw) = seg := hrender
        simp [this]
    | .keyValue kv, hgl, hrender =>
      obtain ⟨f, hf, hmap⟩ :=
        parseLoop_ok_of_wf rest (idx + 1) (L ++ [.keyValue kv])
          (insertA K kv.key kv) hrest
      refine ⟨f, ?_, ?_⟩
      · rw [parseLoop_cons, hgl]
        exact hf
      · rw [hmap]
        simp only [List.map_append, List.map_cons, List.map_nil]
        rw [List.append_assoc]
        have : GrubLine.render (.keyValue kv) = seg := hrender
        simp [this]

/-! ### Claim C1: round-trip identity -/

/-- C1: for every well-formed configuration text (every line whose
trimmed form is nonempty and does not start with a hash sign contains
an equals sign), parsing succeeds and serializing reproduces the text
byte for byte — including a trailing empty segment after a final
newline, kept as an ordinary opaque line. -/
theorem serialize_parse_round_trip (T : List Char)
    (h : ∀ seg ∈ splitOnChar '\n' T,
        trim seg ≠ [] → (trim seg).head? ≠ some '#' → '=' ∈ seg) :
    (GrubFile.new T).map GrubFile.as_string = .ok T := by
  have hwf : ∀ seg ∈ splitOnChar '\n' T, WFSeg seg := by
    intro seg hs
    by_cases h1 : trim seg = []
    · exact Or.inl h1
    · by_cases h2 : (trim seg).head? = some '#'
      · exact Or.inr (Or.inl h2)
      · refine Or.inr (Or.inr ?_)
        exact mem_trim (h seg hs h1 h2) (by decide)
  obtain ⟨f, hf, hmap⟩ := parseLoop_ok_of_wf (splitOnChar '\n' T) 0 [] [] hwf
  unfold GrubFile.new
  rw [hf]
  show Except.ok f.as_string = Except.ok T
  unfold GrubFile.as_string
  rw [hmap]
  simp only [List.map_nil, List.nil_append]
  rw [joinChar_splitOnChar]

/-- C1 witness: a text ending in a newline round-trips. -/
theorem serialize_parse_round_trip_witness :
    (GrubFile.new (("GRUB_DEFAULT=saved\n").toList)).map GrubFile.as_string
      = .ok (("GRUB_DEFAULT=saved\n").toList) :=
  serialize_parse_round_trip _ (by decide)

/-! ### Claim C7: line classification and parse failure -/

/-- The loop fails at the first offending segment with its 1-based
(offset by the starting index) line number. -/
theorem parseLoop_err_at :
    ∀ (segs : List (List Char)) (i idx : Nat) (L : List GrubLine)
      (K : List (List Char × KeyValue)) (seg : List Char),
      segs.get? i = some seg →
      ¬(trim seg = [] ∨ (trim seg).head? = some '#') →
      '=' ∉ trim seg →
      (∀ s ∈ segs.take i, WFSeg s) →
      parseLoop idx segs L K = .error (.grubParse (idx + i + 1))
  | [], i, _, _, _, _, hget, _, _, _ => by simp [List.get?] at hget
  | s0 :: rest, 0, idx, L, K, seg, hget, hop, hmem, _ => by
    have hseg : s0 = seg := by simpa [List.get?] using hget
    subst hseg
    rw [parseLoop_cons, parseLine_err idx s0 hop hmem]
  | s0 :: rest, i + 1, idx, L, K, seg, hget, hop, hmem, hpre => by
    have h0 : WFSeg s0 := hpre s0 (by simp [List.take])
    have hrest : ∀ s ∈ rest.take i, WFSeg s := by
      intro s hs
      exact hpre s (by simp [List.take, hs])
    have hget2 : rest.get? i = some seg := hget
    obtain ⟨gl, hgl⟩ := parseLine_ok_of_wf idx s0 h0
    have harith : idx + 1 + i + 1 = idx + (i + 1) + 1 := by omega
    match gl, hgl with
    | .string raw, hgl =>
      rw [parseLoop_cons, hgl]
      rw [← harith]
      exact parseLoop_err_at rest i (idx + 1) (L ++ [.string raw]) K seg
        hget2 hop hmem hrest
    | .keyValue kv, hgl =>
      rw [parseLoop_cons, hgl]
      rw [← harith]
      exact parseLoop_err_at rest i (idx + 1) (L ++ [.keyValue kv])
        (insertA K kv.key kv) seg hget2 hop hmem hrest

/-- C7: a line whose trimmed form is empty or starts with the comment
marker is stored as an opaque text line preserved verbatim; any other
line lacking an equals sign makes the parse fail with a ParseError
naming the 1-based number of the first such line. -/
theorem line_classification_and_failure :
    (∀ idx seg, trim seg = [] ∨ (trim seg).head? = some '#' →
        parseLine idx seg = .ok (.string seg)) ∧
    (∀ T i seg,
        (splitOnChar '\n' T).get? i = some seg →
        ¬(trim seg = [] ∨ (trim seg).head? = some '#') →
        '=' ∉ trim seg →
        (∀ s ∈ (splitOnChar '\n' T).take i, WFSeg s) →
        GrubFile.new T = .error (.grubParse (i + 1))) := by
  refine ⟨parseLine_text_verbatim, ?_⟩
  intro T i seg hget hop hmem hpre
  unfold GrubFile.new
  have := parseLoop_err_at (splitOnChar '\n' T) i 0 [] [] seg hget hop hmem hpre
  simpa using this

/-- C7 witness: a comment line is stored verbatim; a text whose second
line lacks an equals sign fails naming line 2. -/
theorem line_classification_and_failure_witness :
    parseLine 0 (("# note").toList) = .ok (.string (("# note").toList)) ∧
    GrubFile.new (("A=1\nBAD").toList) = .error (.grubParse 2) :=
  ⟨line_classification_and_failure.1 0 _ (by decide),
   line_classification_and_failure.2 (("A=1\nBAD").toList) 1 (("BAD").toList)
     rfl (by decide) (by decide) (by decide)⟩

/-! ### Map and update lemmas -/

theorem lookupA_cons (p : List Char × KeyValue) (rest : List (List Char × KeyValue))
    (k : List Char) :
    lookupA (p :: rest) k = if p.1 = k then some p.2 else lookupA rest k := rfl

theorem insertA_cons (p : List Char × KeyValue) (rest : List (List Char × KeyValue))
    (k : List Char) (v : KeyValue) :
    insertA (p :: rest) k v =
      if p.1 = k then (k, v) :: rest else p :: insertA rest k v := rfl

theorem lookupA_insertA_self (m : List (List Char × KeyValue)) (k : List Char)
    (v : KeyValue) : lookupA (insertA m k v) k = some v := by
  induction m with
  | nil =>
    show (if k = k then some v else none) = some v
    rw [if_pos rfl]
  | cons p rest ih =>
    rw [insertA_cons]
    by_cases hp : p.1 = k
    · rw [if_pos hp, lookupA_cons, if_pos rfl]
    · rw [if_neg hp, lookupA_cons, if_neg hp, ih]

theorem lookupA_insertA_ne (m : List (List Char × KeyValue)) (k k2 : List Char)
    (v : KeyValue) (h : k2 ≠ k) : lookupA (insertA m k v) k2 = lookupA m k2 := by
  induction m with
  | nil =>
    show (if k = k2 then some v else none) = none
    rw [if_neg fun hc => h hc.symm]
  | cons p rest ih =>
    rw [insertA_cons]
    by_cases hp : p.1 = k
    · rw [if_pos hp, lookupA_cons, lookupA_cons]
      rw [if_neg fun hc : k = k2 => h hc.symm]
      have hp2 : ¬p.1 = k2 := by
        rw [hp]
        exact fun hc => h hc.symm
      rw [if_neg hp2]
    · rw [if_neg hp, lookupA_cons, lookupA_cons]
      by_cases hp2 : p.1 = k2
      · rw [if_pos hp2, if_pos hp2]
      · rw [if_neg hp2, if_neg hp2, ih]

theorem insertA_lookup_self (m : List (List Char × KeyValue)) (k : List Char)
    (v : KeyValue) (h : lookupA m k = some v) : insertA m k v = m := by
  induction m with
  | nil => cases h
  | cons p rest ih =>
    rw [lookupA_cons] at h
    rw [insertA_cons]
    by_cases hp : p.1 = k
    · rw [if_pos hp] at h
      rw [if_pos hp]
      have hv : p.2 = v := by
        injection h with h2
      rw [← hp, ← hv]
    · rw [if_neg hp] at h
      rw [if_neg hp, ih h]

theorem update_key (kv : KeyValue) (v : List Char) : (kv.update v).key = kv.key := by
  unfold KeyValue.update
  split <;> rfl

theorem update_line (kv : KeyValue) (v : List Char) : (kv.update v).line = kv.line := by
  unfold KeyValue.update
  split <;> rfl

theorem update_self (kv : KeyValue) : kv.update kv.value = kv := by
  unfold KeyValue.update
  simp

theorem update_of_ne (kv : KeyValue) (v : List Char) (h : kv.value ≠ v) :
    kv.update v = { kv with changed := true, value := v } := by
  unfold KeyValue.update
  simp [h]

/-! ### The lookup coherence invariant -/

/-- Coherence of a line sequence with a keyvalue map: every binding in
the map carries its own key, points at an identical KeyValue physically
present in the sequence at its line index, and no later line of the
sequence carries the same key (the map holds the last occurrence). -/
def StateCoherent (L : List GrubLine) (K : List (List Char × KeyValue)) : Prop :=
  ∀ k kv, lookupA K k = some kv →
    kv.key = k ∧ L.get? kv.line = some (.keyValue kv) ∧
    ∀ j kv2, kv.line < j → L.get? j = some (.keyValue kv2) → kv2.key ≠ k

/-- The invariant of a document: its line sequence and map cohere. -/
def LookupCoherent (f : GrubFile) : Prop := StateCoherent f.lines f.keyvals

theorem stateCoherent_push_string (L : List GrubLine)
    (K : List (List Char × KeyValue)) (raw : List Char)
    (h : StateCoherent L K) : StateCoherent (L ++ [.string raw]) K := by
  intro k kv hl
  obtain ⟨hk, hget, hlater⟩ := h k kv hl
  have hlt := getq_lt_length L kv.line _ hget
  refine ⟨hk, by rw [getq_append_lt L _ kv.line hlt]; exact hget, ?_⟩
  intro j kv2 hj hgetj
  rcases lt_trichotomy j L.length with hc | hc | hc
  · rw [getq_append_lt L _ j hc] at hgetj
    exact hlater j kv2 hj hgetj
  · rw [hc, getq_append_len] at hgetj
    cases hgetj
  · rw [getq_append_gt L _ j hc] at hgetj
    cases hgetj

theorem stateCoherent_push_keyval (L : List GrubLine)
    (K : List (List Char × KeyValue)) (kv : KeyValue)
    (hline : kv.line = L.length) (h : StateCoherent L K) :
    StateCoherent (L ++ [.keyValue kv]) (insertA K kv.key kv) := by
  intro k kv0 hl
  by_cases hk : k = kv.key
  · subst hk
    rw [lookupA_insertA_self] at hl
    cases hl
    refine ⟨rfl, by rw [hline, getq_append_len], ?_⟩
    intro j kv2 hj hgetj
    rw [hline] at hj
    rw [getq_append_gt L _ j hj] at hgetj
    cases hgetj
  · rw [lookupA_insertA_ne K kv.key k kv hk] at hl
    obtain ⟨hk0, hget, hlater⟩ := h k kv0 hl
    have hlt := getq_lt_length L kv0.line _ hget
    refine ⟨hk0, by rw [getq_append_lt L _ kv0.line hlt]; exact hget, ?_⟩
    intro j kv2 hj hgetj
    rcases lt_trichotomy j L.length with hc | hc | hc
    · rw [getq_append_lt L _ j hc] at hgetj
      exact hlater j kv2 hj hgetj
    · rw [hc, getq_append_len] at hgetj
      injection hgetj with hgetj
      injection hgetj with hgetj
      rw [← hgetj]
      exact fun hc2 => hk hc2.symm
    · rw [getq_append_gt L _ j hc] at hgetj
      cases hgetj

theorem parseLine_keyValue_line (idx : Nat) (seg : List Char) (kv : KeyValue)
    (h : parseLine idx seg = .ok (.keyValue kv)) : kv.line = idx := by
  unfold parseLine at h
  by_cases hop : trim seg = [] ∨ (trim seg).head? = some '#'
  · rw [if_pos hop] at h
    cases h
  · rw [if_neg hop] at h
    unfold KeyValue.new at h
    match hs : splitOnce '=' (trim seg) with
    | none => rw [hs] at h; cases h
    | some sp =>
      rw [hs] at h
      cases h
      rfl

/-- The parse loop preserves coherence of its accumulated state. -/
theorem parseLoop_coherent :
    ∀ (segs : List (List Char)) (idx : Nat) (L : List GrubLine)
      (K : List (List Char × KeyValue)) (f : GrubFile),
      idx = L.length → StateCoherent L K →
      parseLoop idx segs L K = .ok f → LookupCoherent f
  | [], idx, L, K, f, _, hco, hp => by
    cases hp
    exact hco
  | seg :: rest, idx, L, K, f, hidx, hco, hp => by
    rw [parseLoop_cons] at hp
    match hgl : parseLine idx seg with
    | .error e => rw [hgl] at hp; cases hp
    | .ok (.string raw) =>
      rw [hgl] at hp
      exact parseLoop_coherent rest (idx + 1) (L ++ [.string raw]) K f
        (by simp [hidx]) (stateCoherent_push_string L K raw hco) hp
    | .ok (.keyValue kv) =>
      rw [hgl] at hp
      have hline : kv.line = L.length := by
        rw [parseLine_keyValue_line idx seg kv hgl, hidx]
      exact parseLoop_coherent rest (idx + 1) (L ++ [.keyValue kv])
        (insertA K kv.key kv) f (by simp [hidx])
        (stateCoherent_push_keyval L K kv hline hco) hp

/-- Parsing establishes the coherence invariant. -/
theorem lookupCoherent_new (T : List Char) (f : GrubFile)
    (h : GrubFile.new T = .ok f) : LookupCoherent f :=
  parseLoop_coherent (splitOnChar '\n' T) 0 [] [] f rfl
    (fun _ _ hl => by cases hl) h

/-- Unfolding of `set_key_value` when the key is bound in the map and
its line really holds a KeyValue. -/
theorem set_key_value_found (f : GrubFile) (key value : List Char)
    (kv lkv : KeyValue) (hl : lookupA f.keyvals key = some kv)
    (hget : f.lines.get? kv.line = some (.keyValue lkv)) :
    f.set_key_value key value =
      { lines := f.lines.set kv.line (.keyValue (lkv.update value)),
        keyvals := insertA f.keyvals key (kv.update value) } := by
  simp only [GrubFile.set_key_value, hl, hget]

/-- Unfolding of `set_key_value` when the key is absent from the map. -/
theorem set_key_value_absent (f : GrubFile) (key value : List Char)
    (hl : lookupA f.keyvals key = none) :
    f.set_key_value key value =
      { lines := f.lines ++
          [.keyValue (KeyValue.from_key_val f.lines.length key value)],
        keyvals := insertA f.keyvals key
          (KeyValue.from_key_val f.lines.length key value) } := by
  simp only [GrubFile.set_key_value, hl]
  rfl

/-- `set_key_value` preserves the coherence invariant. -/
theorem lookupCoherent_set (f : GrubFile) (key value : List Char)
    (h : LookupCoherent f) : LookupCoherent (f.set_key_value key value) := by
  match hl : lookupA f.keyvals key with
  | some kv =>
    obtain ⟨hk, hget, hlater⟩ := h key kv hl
    rw [set_key_value_found f key value kv kv hl hget]
    have hlen := getq_lt_length f.lines kv.line _ hget
    intro k kv0 hl0
    by_cases hkk : k = key
    · subst hkk
      rw [lookupA_insertA_self] at hl0
      injection hl0 with hl0
      rw [← hl0]
      refine ⟨by rw [update_key, hk], ?_, ?_⟩
      · show (f.lines.set kv.line (.keyValue (kv.update value))).get?
            (kv.update value).line = _
        rw [update_line]
        rw [getq_set_self f.lines kv.line _ hlen]
      · intro j kv2 hj hgetj
        rw [update_line] at hj
        have hgetj2 : f.lines.get? j = some (.keyValue kv2) := by
          rw [← getq_set_ne f.lines kv.line j (.keyValue (kv.update value))
            (Nat.ne_of_lt hj)]
          exact hgetj
        exact hlater j kv2 hj hgetj2
    · rw [lookupA_insertA_ne f.keyvals key k _ hkk] at hl0
      obtain ⟨hk0, hget0, hlater0⟩ := h k kv0 hl0
      have hne : kv0.line ≠ kv.line := by
        intro hc
        rw [hc, hget] at hget0
        injection hget0 with hget0
        injection hget0 with hget0
        rw [hget0] at hk
        exact hkk (by rw [← hk0, hk])
      refine ⟨hk0, ?_, ?_⟩
      · show (f.lines.set kv.line (.keyValue (kv.update value))).get?
            kv0.line = _
        rw [getq_set_ne f.lines kv.line kv0.line _ fun hc => hne hc.symm]
        exact hget0
      · intro j kv2 hj hgetj
        by_cases hjc : j = kv.line
        · subst hjc
          rw [getq_set_self f.lines kv.line _ hlen] at hgetj
          injection hgetj with hgetj
          injection hgetj with hgetj
          rw [← hgetj, update_key, hk]
          exact fun hc => hkk hc.symm
        · rw [getq_set_ne f.lines kv.line j _ fun hc => hjc hc.symm] at hgetj
          exact hlater0 j kv2 hj hgetj
  | none =>
    rw [set_key_value_absent f key value hl]
    intro k kv0 hl0
    by_cases hkk : k = key
    · subst hkk
      rw [lookupA_insertA_self] at hl0
      injection hl0 with hl0
      rw [← hl0]
      refine ⟨rfl, by rw [show (KeyValue.from_key_val f.lines.length k value).line
          = f.lines.length from rfl, getq_append_len], ?_⟩
      intro j kv2 hj hgetj
      rw [getq_append_gt f.lines _ j hj] at hgetj
      cases hgetj
    · rw [lookupA_insertA_ne f.keyvals key k _ hkk] at hl0
      obtain ⟨hk0, hget0, hlater0⟩ := h k kv0 hl0
      have hlt := getq_lt_length f.lines kv0.line _ hget0
      refine ⟨hk0, by rw [getq_append_lt f.lines _ kv0.line hlt]; exact hget0, ?_⟩
      intro j kv2 hj hgetj
      rcases lt_trichotomy j f.lines.length with hc | hc | hc
      · rw [getq_append_lt f.lines _ j hc] at hgetj
        exact hlater0 j kv2 hj hgetj
      · rw [hc, getq_append_len] at hgetj
        injection hgetj with hgetj
        injection hgetj with hgetj
        rw [← hgetj]
        exact fun hc2 => hkk hc2.symm
      · rw [getq_append_gt f.lines _ j hc] at hgetj
        cases hgetj

/-- Coherence is preserved across any edit sequence. -/
theorem lookupCoherent_applyOps :
    ∀ (ops : List (List Char × List Char)) (f : GrubFile),
      LookupCoherent f → LookupCoherent (applyOps f ops)
  | [], _, h => h
  | op :: rest, f, h =>
    lookupCoherent_applyOps rest (f.set_key_value op.1 op.2)
      (lookupCoherent_set f op.1 op.2 h)

/-- The parsed document of a text, defaulting to the empty document;
used to name concrete parsed documents in witnesses. -/
def parsedOr (s : List Char) : GrubFile :=
  match GrubFile.new s with
  | .ok f => f
  | .error _ => { lines := [], keyvals := [] }

/-! ### Claim C6: lookup-sequence coherence -/

/-- C6: for every document obtained by parsing and then any sequence of
set_key_value operations, every key in the keyvalue map binds an Entry
equal to the Entry stored at that Entry's line index in the ordered
line sequence (the two copies never diverge), and no later line holds
the same key, so the map holds the last occurrence. -/
theorem map_sequence_coherence (T : List Char) (f : GrubFile)
    (ops : List (List Char × List Char)) (h : GrubFile.new T = .ok f) :
    ∀ k kv, lookupA (applyOps f ops).keyvals k = some kv →
      kv.key = k ∧
      (applyOps f ops).lines.get? kv.line = some (.keyValue kv) ∧
      ∀ j kv2, kv.line < j →
        (applyOps f ops).lines.get? j = some (.keyValue kv2) → kv2.key ≠ k :=
  lookupCoherent_applyOps ops f (lookupCoherent_new T f h)

/-- Text with a duplicated key, for the coherence witness. -/
def dupKeySrc : List Char := ("A=1\nA=2").toList

/-- C6 witness: after parsing a text where key A occurs on lines 0 and
1 and appending key B, the map's binding of A is the line-1 occurrence
and coincides with the stored line. -/
theorem map_sequence_coherence_witness :
    lookupA (applyOps (parsedOr dupKeySrc)
        [(("B").toList, ("x").toList)]).keyvals (("A").toList)
      = some ⟨1, ("A=2").toList, false, ("A").toList, ("2").toList⟩ ∧
    (applyOps (parsedOr dupKeySrc)
        [(("B").toList, ("x").toList)]).lines.get? 1
      = some (.keyValue ⟨1, ("A=2").toList, false, ("A").toList, ("2").toList⟩) :=
  ⟨rfl,
   (map_sequence_coherence dupKeySrc (parsedOr dupKeySrc)
      [(("B").toList, ("x").toList)] rfl (("A").toList)
      ⟨1, ("A=2").toList, false, ("A").toList, ("2").toList⟩ rfl).2.1⟩

/-! ### Claim C8: no-op edit idempotence -/

/-- C8: for every coherent document and key K present with current
value V, setting K to V leaves the document unchanged — in particular
it never flips the dirty flag of the Entry of K and never changes the
serialized output. -/
theorem noop_edit_identity (f : GrubFile) (K : List Char) (kv : KeyValue)
    (hco : LookupCoherent f) (hl : lookupA f.keyvals K = some kv) :
    f.set_key_value K kv.value = f ∧
    (f.set_key_value K kv.value).as_string = f.as_string ∧
    lookupA (f.set_key_value K kv.value).keyvals K = some kv := by
  obtain ⟨hk, hget, -⟩ := hco K kv hl
  have h1 : f.set_key_value K kv.value = f := by
    rw [set_key_value_found f K kv.value kv kv hl hget]
    rw [update_self]
    rw [set_getq_self f.lines kv.line _ hget]
    rw [insertA_lookup_self f.keyvals K kv hl]
  exact ⟨h1, by rw [h1], by rw [h1]; exact hl⟩

/-- C8 witness: re-setting A to its current value 1 is the identity. -/
theorem noop_edit_identity_witness :
    (parsedOr (("A=1\nB=2").toList)).set_key_value (("A").toList) (("1").toList)
      = parsedOr (("A=1\nB=2").toList) :=
  (noop_edit_identity (parsedOr (("A=1\nB=2").toList)) (("A").toList)
    ⟨0, ("A=1").toList, false, ("A").toList, ("1").toList⟩
    (lookupCoherent_new (("A=1\nB=2").toList) _ rfl) rfl).1

/-! ### Claim C2: set_key_value serialization postcondition -/

theorem render_update_ne (kv : KeyValue) (v : List Char) (h : kv.value ≠ v) :
    GrubLine.render (.keyValue (kv.update v))
      = kv.key ++ '=' :: '\x22' :: (v ++ ['\x22']) := by
  rw [show GrubLine.render (.keyValue (kv.update v)) = (kv.update v).render from rfl]
  rw [update_of_ne kv v h]
  rfl

/-- C2: on a coherent document, if K is bound with a value different
from V then after set_key_value the rendered line at the entry's index
is exactly K="V" and every other rendered line is unchanged; if K is
absent a new K="V" line is appended after the untouched original
lines. -/
theorem set_key_value_serialization_shape (f : GrubFile) (K V : List Char)
    (hco : LookupCoherent f) :
    (∀ kv, lookupA f.keyvals K = some kv → kv.value ≠ V →
      ((f.set_key_value K V).lines.map GrubLine.render).get? kv.line
          = some (K ++ '=' :: '\x22' :: (V ++ ['\x22'])) ∧
      ∀ j, j ≠ kv.line →
        ((f.set_key_value K V).lines.map GrubLine.render).get? j
            = (f.lines.map GrubLine.render).get? j) ∧
    (lookupA f.keyvals K = none →
      (f.set_key_value K V).lines.map GrubLine.render
          = f.lines.map GrubLine.render
              ++ [K ++ '=' :: '\x22' :: (V ++ ['\x22'])]) := by
  constructor
  · intro kv hl hne
    obtain ⟨hk, hget, -⟩ := hco K kv hl
    have hlen := getq_lt_length f.lines kv.line _ hget
    rw [set_key_value_found f K V kv kv hl hget]
    constructor
    · show ((f.lines.set kv.line (.keyValue (kv.update V))).map
          GrubLine.render).get? kv.line = _
      rw [getq_map, getq_set_self f.lines kv.line _ hlen]
      show some (GrubLine.render (.keyValue (kv.update V))) = _
      rw [render_update_ne kv V hne, hk]
    · intro j hj
      show ((f.lines.set kv.line (.keyValue (kv.update V))).map
          GrubLine.render).get? j = _
      rw [getq_map, getq_map,
        getq_set_ne f.lines kv.line j _ fun hc => hj hc.symm]
  · intro hl
    rw [set_key_value_absent f K V hl]
    show (f.lines ++ [GrubLine.keyValue (KeyValue.from_key_val f.lines.length K V)]).map
        GrubLine.render = _
    rw [List.map_append]
    rfl

/-- C2 witness: overwriting A=1 with value 9 rewrites line 0 to the
double-quoted normal form and leaves line 1 untouched; setting absent
key C appends exactly one C="3" line. -/
theorem set_key_value_serialization_shape_witness :
    (((parsedOr (("A=1\nB=2").toList)).set_key_value (("A").toList)
        (("9").toList)).lines.map GrubLine.render).get? 0
      = some (("A=\x229\x22").toList) ∧
    (((parsedOr (("A=1\nB=2").toList)).set_key_value (("A").toList)
        (("9").toList)).lines.map GrubLine.render).get? 1
      = ((parsedOr (("A=1\nB=2").toList)).lines.map GrubLine.render).get? 1 ∧
    ((parsedOr (("A=1\nB=2").toList)).set_key_value (("C").toList)
        (("3").toList)).lines.map GrubLine.render
      = (parsedOr (("A=1\nB=2").toList)).lines.map GrubLine.render
          ++ [("C=\x223\x22").toList] := by
  have hco : LookupCoherent (parsedOr (("A=1\nB=2").toList)) :=
    lookupCoherent_new (("A=1\nB=2").toList) _ rfl
  have h1 := (set_key_value_serialization_shape
    (parsedOr (("A=1\nB=2").toList)) (("A").toList) (("9").toList) hco).1
    ⟨0, ("A=1").toList, false, ("A").toList, ("1").toList⟩ rfl (by decide)
  have h2 := (set_key_value_serialization_shape
    (parsedOr (("A=1\nB=2").toList)) (("C").toList) (("3").toList) hco).2 rfl
  exact ⟨h1.1, h1.2 1 (by decide), h2⟩

/-! ### Claim C4: brace-pop asymmetry and nesting -/

/-- Menu source with one top-level entry and one submenu with two
entries, as in the boot-entry nesting property. -/
def nestedMenuSrc : List Char :=
  ("menuentry \x27Top\x27 \x7b\n\x7d\nsubmenu \x27Sub\x27 \x7b\nmenuentry \x27A\x27 \x7b\n\x7d\nmenuentry \x27B\x27 \x7b\n\x7d\n\x7d\n").toList

/-- C4: while scanning the trimmed lines, a line that is exactly a
closing brace closes an open entry block without popping the submenu
stack, and otherwise pops one level off the stack; emitted entries
snapshot the stack at their menuentry line, and full_path joins the
submenu names with a greater-than sign before the name (just the name
with no submenus), so the one-top-entry one-submenu-two-entries source
yields 3 entries with nested full paths SubmenuName-gt-EntryName. -/
theorem brace_pop_asymmetry_and_nesting :
    (∀ rest subs acc,
        parseEntriesLoop (['\x7d'] :: rest) true subs acc
          = parseEntriesLoop rest false subs acc) ∧
    (∀ rest subs acc,
        parseEntriesLoop (['\x7d'] :: rest) false subs acc
          = parseEntriesLoop rest false subs.dropLast acc) ∧
    GrubBootEntry.parse_entries nestedMenuSrc =
      .ok [⟨("Top").toList, []⟩, ⟨("A").toList, [("Sub").toList]⟩,
           ⟨("B").toList, [("Sub").toList]⟩] ∧
    GrubBootEntry.full_path ⟨("Top").toList, []⟩ = ("Top").toList ∧
    GrubBootEntry.full_path ⟨("A").toList, [("Sub").toList]⟩ = ("Sub>A").toList ∧
    GrubBootEntry.full_path ⟨("B").toList, [("Sub").toList]⟩ = ("Sub>B").toList :=
  ⟨fun _ _ _ => rfl, fun _ _ _ => rfl, rfl, rfl, rfl, rfl⟩

/-! ### Claim C10: totality of the menu scan -/

/-- Menu text with a malformed menuentry line (no quoted name) between
a submenu opening and its closing brace. -/
def menuSrcWithBadEntry : List Char :=
  ("submenu \x27S\x27 \x7b\nmenuentry\n\x7d\nmenuentry \x27A\x27 \x7b\n").toList

/-- The same text with the malformed menuentry line deleted. -/
def menuSrcWithoutBadEntry : List Char :=
  ("submenu \x27S\x27 \x7b\n\x7d\nmenuentry \x27A\x27 \x7b\n").toList

/-- C10 counterexample: a menuentry line whose name does not match the
quoted-name pattern is NOT skipped without affecting the rest of the
scan: it still marks an entry block open, so the following closing
brace closes that phantom block instead of popping the submenu stack,
and the later entry is emitted with a different submenu path than if
the malformed line were absent. -/
theorem malformed_menuentry_affects_scan :
    GrubBootEntry.parse_entries menuSrcWithBadEntry
      = .ok [⟨("A").toList, [("S").toList]⟩] ∧
    GrubBootEntry.parse_entries menuSrcWithoutBadEntry
      = .ok [⟨("A").toList, []⟩] ∧
    ([⟨("A").toList, [("S").toList]⟩] : List GrubBootEntry)
      ≠ [⟨("A").toList, []⟩] :=
  ⟨rfl, rfl, by decide⟩

/-- C10 (amended): parse_entries returns Ok for every input; a
closing-brace line with no open entry block and an empty submenu stack
is a no-op (popping the empty stack cannot underflow); a submenu line
whose name fails the quoted-name pattern is skipped with no effect; a
menuentry line whose name fails the pattern emits no entry but still
marks an entry block open. -/
theorem parse_entries_total_and_brace_safe :
    (∀ s, ∃ es, GrubBootEntry.parse_entries s = .ok es) ∧
    (∀ rest acc,
        parseEntriesLoop (['\x7d'] :: rest) false [] acc
          = parseEntriesLoop rest false [] acc) ∧
    (∀ rest entryOpen subs acc,
        parseEntriesLoop (("menuentry").toList :: rest) entryOpen subs acc
          = parseEntriesLoop rest true subs acc) ∧
    (∀ rest entryOpen subs acc,
        parseEntriesLoop (("submenu x").toList :: rest) entryOpen subs acc
          = parseEntriesLoop rest entryOpen subs acc) :=
  ⟨fun _ => ⟨_, rfl⟩, fun _ _ => rfl, fun _ _ _ _ => rfl, fun _ _ _ _ => rfl⟩

/-! ### Claim C5: quote handling in parse -/

/-- Modelled from the spec: strip the surrounding single/double quote
characters of a value — one leading quote character and one trailing
quote character — leaving every other character in place. -/
def stripSurroundingQuotes (v : List Char) : List Char :=
  let v1 := match v with
    | c :: rest => if c = '\x27' ∨ c = '\x22' then rest else v
    | [] => []
  match v1.getLast? with
  | some c => if c = '\x27' ∨ c = '\x22' then v1.dropLast else v1
  | none => v1

/-- C5 counterexample: on the line A=x"y (an interior double quote, no
surrounding quotes) the parser stores the value xy — the interior quote
is removed as well — while stripping only surrounding quotes would
preserve the value unchanged. -/
theorem interior_quote_not_preserved :
    (KeyValue.new 0 (("A=x\x22y").toList)).map (fun kv => kv.value)
      = .ok (("xy").toList) ∧
    stripSurroundingQuotes (("x\x22y").toList) = ("x\x22y").toList ∧
    (("xy").toList : List Char) ≠ ("x\x22y").toList :=
  ⟨rfl, rfl, by decide⟩

/-- C5 (amended): for every parsed key/value line, the stored value is
the text after the first equals sign of the trimmed line with every
single/double quote character removed, wherever it occurs; quote
characters are removed from the value side only — the key is the text
before the first equals sign, kept verbatim. -/
theorem parse_strips_all_value_quotes (idx : Nat) (seg a b : List Char)
    (h : splitOnce '=' (trim seg) = some (a, b)) :
    KeyValue.new idx seg =
      .ok { line := idx, original := seg, changed := false, key := a,
            value := b.filter (fun ch => ch != '\x27' && ch != '\x22') } := by
  simp [KeyValue.new, h]

/-- C5 witness: a line whose key carries double quotes and whose value
mixes quote styles; the key survives verbatim, the value loses every
quote character. -/
theorem parse_strips_all_value_quotes_witness :
    KeyValue.new 0 (("\x22K\x22=\x27a\x27b\x22c").toList) =
      .ok { line := 0, original := ("\x22K\x22=\x27a\x27b\x22c").toList,
            changed := false, key := ("\x22K\x22").toList,
            value := ("abc").toList } :=
  parse_strips_all_value_quotes 0 _ (("\x22K\x22").toList)
    (("\x27a\x27b\x22c").toList) rfl

/-! ### Claim C9: per-batch notification de-duplication -/

theorem processBatch_cons (e : FsEvent) (rest : List FsEvent) (signaled : Bool) :
    processBatch (e :: rest) signaled =
      if e.mask.contains EventMask.modify && !signaled && watchedName e.name then
        1 + processBatch rest true
      else processBatch rest signaled := rfl

theorem processBatch_signaled : ∀ (evs : List FsEvent), processBatch evs true = 0
  | [] => rfl
  | e :: rest => by
    rw [processBatch_cons]
    simp [processBatch_signaled rest]

/-- C9: in one batch of filesystem events read together, at most one
outbound file-changed notification is emitted, and exactly one is
emitted as soon as the batch holds at least one modification event
naming grub or grubenv, however many qualifying events it holds. -/
theorem batch_emits_at_most_once (events : List FsEvent) :
    processBatch events false ≤ 1 ∧
    ((∃ e ∈ events, qualifies e = true) → processBatch events false = 1) := by
  induction events with
  | nil =>
    refine ⟨by simp [processBatch], ?_⟩
    rintro ⟨e, he, -⟩
    exact absurd he (by simp)
  | cons e rest ih =>
    by_cases hq : qualifies e = true
    · have hcond : (e.mask.contains EventMask.modify && !false
          && watchedName e.name) = true := by
        have := hq
        unfold qualifies at this
        simp only [Bool.not_false, Bool.and_true]
        simpa using this
      have hval : processBatch (e :: rest) false = 1 := by
        rw [processBatch_cons, hcond]
        simp [processBatch_signaled rest]
      exact ⟨by rw [hval], fun _ => hval⟩
    · have hcond : (e.mask.contains EventMask.modify && !false
          && watchedName e.name) = false := by
        unfold qualifies at hq
        simp only [Bool.not_false, Bool.and_true]
        simpa using hq
      have hval : processBatch (e :: rest) false = processBatch rest false := by
        rw [processBatch_cons, hcond]
        simp
      refine ⟨by rw [hval]; exact ih.1, ?_⟩
      rintro ⟨e2, he2, hq2⟩
      rcases List.mem_cons.mp he2 with rfl | hmem
      · exact absurd hq2 hq
      · rw [hval]
        exact ih.2 ⟨e2, hmem, hq2⟩

/-- C9 witness: a batch of two modification events, one naming grub and
one naming grubenv, yields exactly one notification. -/
theorem batch_emits_at_most_once_witness :
    processBatch [⟨[EventMask.modify], some (("grub").toList)⟩,
                  ⟨[EventMask.modify], some (("grubenv").toList)⟩] false = 1 :=
  (batch_emits_at_most_once _).2
    ⟨⟨[EventMask.modify], some (("grub").toList)⟩, by decide, by decide⟩

/-! ### Claim C3: selection resolution -/

theorem parseUsize_nil : parseUsize [] = none := rfl

/-- C3: with no saved_entry line the catalog has no selection; a
saved_entry line without an equals sign is a ParseError, as is an empty
trimmed right-hand side; a value parsing as a non-negative integer n
selects the entry at 0-based index n in discovery order, with an
out-of-range n resolving to no selection rather than an error; any
other value is matched by exact string equality against each entry
name. -/
theorem selection_resolution :
    (∀ es env, (rustLines env).find? (fun l => kwSavedEntry.isPrefixOf l) = none →
        resolveSelected es env = .ok none) ∧
    (∀ es env line,
        (rustLines env).find? (fun l => kwSavedEntry.isPrefixOf l) = some line →
        splitOnce '=' line = none →
        resolveSelected es env = .error .envExpectedEq) ∧
    (∀ es env line a b,
        (rustLines env).find? (fun l => kwSavedEntry.isPrefixOf l) = some line →
        splitOnce '=' line = some (a, b) → trim b = [] →
        resolveSelected es env = .error .envExpectedValue) ∧
    (∀ es env line a b n,
        (rustLines env).find? (fun l => kwSavedEntry.isPrefixOf l) = some line →
        splitOnce '=' line = some (a, b) → parseUsize (trim b) = some n →
        resolveSelected es env = .ok (es.get? n) ∧
          (es.length ≤ n → resolveSelected es env = .ok none)) ∧
    (∀ es env line a b,
        (rustLines env).find? (fun l => kwSavedEntry.isPrefixOf l) = some line →
        splitOnce '=' line = some (a, b) → trim b ≠ [] →
        parseUsize (trim b) = none →
        resolveSelected es env =
          .ok (es.find? (fun e => e.entry == trim b))) := by
  refine ⟨?_, ?_, ?_, ?_, ?_⟩
  · intro es env hfind
    simp [resolveSelected, hfind]
  · intro es env line hfind hsplit
    simp [resolveSelected, hfind, hsplit]
  · intro es env line a b hfind hsplit htrim
    simp [resolveSelected, hfind, hsplit, htrim]
  · intro es env line a b n hfind hsplit hp
    have htrim : trim b ≠ [] := by
      intro hc
      rw [hc, parseUsize_nil] at hp
      cases hp
    have hmain : resolveSelected es env = .ok (es.get? n) := by
      simp [resolveSelected, hfind, hsplit, htrim, hp]
    refine ⟨hmain, fun hle => ?_⟩
    rw [hmain, getq_none_of_le es n hle]
  · intro es env line a b hfind hsplit htrim hp
    simp [resolveSelected, hfind, hsplit, htrim, hp]

/-- C3 witness: with two discovered entries, index value 1 selects the
second entry, an out-of-range index 99 selects nothing, and an empty
value is the empty-value parse error. -/
theorem selection_resolution_witness :
    resolveSelected [⟨("one").toList, []⟩, ⟨("two").toList, []⟩]
        (("saved_entry=1\n").toList) = .ok (some ⟨("two").toList, []⟩) ∧
    resolveSelected [⟨("one").toList, []⟩, ⟨("two").toList, []⟩]
        (("saved_entry=99\n").toList) = .ok none ∧
    resolveSelected [⟨("one").toList, []⟩, ⟨("two").toList, []⟩]
        (("saved_entry=").toList) = .error .envExpectedValue := by
  refine ⟨?_, ?_, ?_⟩
  · exact (selection_resolution.2.2.2.1
      [⟨("one").toList, []⟩, ⟨("two").toList, []⟩] (("saved_entry=1\n").toList)
      (("saved_entry=1").toList) (("saved_entry").toList) (("1").toList) 1
      rfl rfl rfl).1
  · exact (selection_resolution.2.2.2.1
      [⟨("one").toList, []⟩, ⟨("two").toList, []⟩] (("saved_entry=99\n").toList)
      (("saved_entry=99").toList) (("saved_entry").toList) (("99").toList) 99
      rfl rfl rfl).1
  · exact selection_resolution.2.2.1
      [⟨("one").toList, []⟩, ⟨("two").toList, []⟩] (("saved_entry=").toList)
      (("saved_entry=").toList) (("saved_entry").toList) [] rfl rfl rfl

end Bootkitd
